import Mathlib

/-!
Verification of the JewOrNotJewKit scraper core against its specification.

Go strings are modelled as lists of characters (`List Char`); `goLen` is the
number of UTF-8 bytes, matching Go's built-in `len` on strings.  Indices into
strings are character positions; this coincides with Go's byte positions up to
the monotone byte/char correspondence of valid UTF-8, which is what the cut
and search logic of the source relies on.  Timestamps (RFC-3339 strings of a
monotone clock in the source) are modelled as natural numbers ordered like the
instants they denote; copying a timestamp string is modelled as copying the
number, so string (byte-for-byte) equality corresponds to equality of the
model values.  Maps are modelled as association lists with Go map semantics
(insert-or-replace).  All definitions are translated from
pkg/client (ScrapeAll, scrapeProfile, parseProfile, splitByBullets,
cleanHTML) and pkg/models/profile.go.
-/

/-- Character list of a string literal, used to write Go string constants. -/
def goS (s : String) : List Char := s.data

/-- Go len(s): the number of UTF-8 bytes of the string. -/
def goLen (s : List Char) : Nat := (s.map Char.utf8Size).sum

/-- Go unicode.IsSpace: Latin-1 white space plus the Unicode White_Space
code points (as listed in the Go standard library). -/
def isGoSpace (c : Char) : Bool :=
  c == ' ' || c == '\t' || c == '\n' || c == '\x0b' || c == '\x0c' || c == '\r' ||
  c.toNat == 0x85 || c.toNat == 0xA0 || c.toNat == 0x1680 ||
  (decide (0x2000 ≤ c.toNat) && decide (c.toNat ≤ 0x200A)) ||
  c.toNat == 0x2028 || c.toNat == 0x2029 || c.toNat == 0x202F ||
  c.toNat == 0x205F || c.toNat == 0x3000

/-- Go strings.TrimSpace: drop white space from both ends. -/
def trimSpace (s : List Char) : List Char :=
  ((s.dropWhile isGoSpace).reverse.dropWhile isGoSpace).reverse

/-- Smallest index at which `sub` occurs in `s` (Go strings.Index, as an
option instead of -1). -/
def firstIdxFrom (s sub : List Char) : Option Nat :=
  (List.range (s.length + 1)).find? (fun i => sub.isPrefixOf (s.drop i))

/-- All indices at which `sub` occurs in `s`. -/
def occIdxs (s sub : List Char) : List Nat :=
  (List.range (s.length + 1)).filter (fun i => sub.isPrefixOf (s.drop i))

/-- Largest index at which `sub` occurs in `s` (Go strings.LastIndex, as an
option instead of -1). -/
def lastIdxFrom (s sub : List Char) : Option Nat :=
  (occIdxs s sub).getLast?

/-- Go strings.Contains. -/
def containsSub (s sub : List Char) : Bool :=
  (firstIdxFrom s sub).isSome

/-- Go strings.TrimPrefix. -/
def trimPreSub (s pre : List Char) : List Char :=
  if pre.isPrefixOf s then s.drop pre.length else s

/-- Go strings.TrimSuffix. -/
def trimSufSub (s suf : List Char) : List Char :=
  if suf.isSuffixOf s then s.take (s.length - suf.length) else s

/-- Worker for `splitSub`; the fuel bounds the recursion and is always
sufficient (one character is consumed per step for a non-empty separator). -/
def splitSubAux (sep : List Char) : Nat → List Char → List Char → List (List Char)
  | 0, s, acc => [acc.reverse ++ s]
  | fuel + 1, s, acc =>
    match s with
    | [] => [acc.reverse]
    | c :: rest =>
      if sep.isPrefixOf (c :: rest) ∧ sep ≠ [] then
        acc.reverse :: splitSubAux sep fuel ((c :: rest).drop sep.length) []
      else
        splitSubAux sep fuel rest (c :: acc)

/-- Go strings.Split with a non-empty separator. -/
def splitSub (s sep : List Char) : List (List Char) :=
  splitSubAux sep (s.length + 1) s []

/-- Go strings.SplitN(s, sep, 2): the part before the first occurrence of
`sep`, and the part after it when `sep` occurs. -/
def splitN2 (s sep : List Char) : List Char × Option (List Char) :=
  match firstIdxFrom s sep with
  | some i => (s.take i, some (s.drop (i + sep.length)))
  | none => (s, none)

/-- Go strings.Replace(s, pat, "", 1): remove the first occurrence of `pat`. -/
def replaceFirstSub (s pat : List Char) : List Char :=
  match firstIdxFrom s pat with
  | some i => s.take i ++ s.drop (i + pat.length)
  | none => s

/-- Worker for `replaceAllSub`. -/
def replaceAllAux (pat repl : List Char) : Nat → List Char → List Char
  | 0, s => s
  | fuel + 1, s =>
    match firstIdxFrom s pat with
    | some i =>
      if pat = [] then s
      else s.take i ++ repl ++ replaceAllAux pat repl fuel (s.drop (i + pat.length))
    | none => s

/-- Go strings.ReplaceAll with a non-empty pattern. -/
def replaceAllSub (s pat repl : List Char) : List Char :=
  replaceAllAux pat repl (s.length + 1) s

/-- Go strings.ToLower, character by character (the inputs the claims are
about are ASCII, where this coincides with Go's Unicode lowering). -/
def toLowerCs (s : List Char) : List Char := s.map Char.toLower

/-- Decimal digits of a natural number, Go fmt %d. -/
def natChars (n : Nat) : List Char := (Nat.repr n).data

/-- The bullet glyphs recognised by splitByBullets, in source order. -/
def bulletGlyphs : List (List Char) :=
  [goS "•", goS "-", goS "★", goS "✓", goS "✔", goS "*", goS "→", goS "⇒",
   goS "⟹", goS "⇾", goS "⟶"]

/-- RE2 Perl class backslash-s: tab, newline, form feed, carriage return,
space. -/
def isRegexSpace (c : Char) : Bool :=
  c == '\t' || c == '\n' || c == '\x0c' || c == '\r' || c == ' '

/-- Length of a match of the number-list pattern (digits, dot, white space)
at the start of the character list, if any. -/
def numMatchLen (cs : List Char) : Option Nat :=
  let ds := cs.takeWhile Char.isDigit
  if ds = [] then none
  else
    match cs.drop ds.length with
    | '.' :: rest =>
      let ws := rest.takeWhile isRegexSpace
      if ws = [] then none else some (ds.length + 1 + ws.length)
    | _ => none

/-- Whether the number-list pattern matches anywhere (Go MatchString). -/
def hasNumMatch : List Char → Bool
  | [] => false
  | c :: rest => (numMatchLen (c :: rest)).isSome || hasNumMatch rest

/-- Worker for `numSplit`: split around leftmost non-overlapping matches of
the number-list pattern (Go regexp Split). -/
def numSplitAux : Nat → List Char → List Char → List (List Char)
  | 0, s, acc => [acc.reverse ++ s]
  | fuel + 1, s, acc =>
    match s with
    | [] => [acc.reverse]
    | c :: rest =>
      match numMatchLen (c :: rest) with
      | some n => acc.reverse :: numSplitAux fuel ((c :: rest).drop n) []
      | none => numSplitAux fuel rest (c :: acc)

/-- Go numberRegex.Split(text, -1) for the pattern digits-dot-space. -/
def numSplit (s : List Char) : List (List Char) :=
  numSplitAux (s.length + 1) s []

/-- Strip one leading bullet glyph from a line and trim, as the newline
branch of splitByBullets does. -/
def stripLeadBullet (l : List Char) : List Char :=
  match bulletGlyphs.find? (fun b => b.isPrefixOf l) with
  | some b => trimSpace (l.drop b.length)
  | none => l

/-- First character is an ASCII capital letter (Go part[0] between A and Z). -/
def firstUpper : List Char → Bool
  | [] => false
  | c :: _ => decide ('A' ≤ c) && decide (c ≤ 'Z')

/-- The items produced by splitByBullets before its final cleanup pass:
the bullet split, the newline split, the numbered-list split, the
sentence/semicolon split, and the whole-text fallback, in source order. -/
def preItems (text0 : List Char) : List (List Char) :=
  let text := trimSpace text0
  let items1 : List (List Char) :=
    match bulletGlyphs.find? (fun b => containsSub text b) with
    | some b => ((splitSub text b).map trimSpace).filter (fun p => decide (p ≠ []))
    | none =>
      if containsSub text (goS "\n") then
        ((splitSub text (goS "\n")).map (fun l => stripLeadBullet (trimSpace l))).filter
          (fun l => decide (l ≠ [] ∧ 2 < goLen l))
      else []
  let items2 : List (List Char) :=
    if items1 = [] ∧ hasNumMatch text then
      ((numSplit text).map trimSpace).filter (fun p => decide (p ≠ [] ∧ 2 < goLen p))
    else items1
  let items3 : List (List Char) :=
    if items2 = [] ∧ 15 < goLen text ∧
        (containsSub text (goS ". ") ∨ containsSub text (goS "; ")) then
      let parts := splitSub text (goS ". ")
      if 1 < parts.length then
        (parts.map trimSpace).filterMap (fun p =>
          if p ≠ [] ∧ 10 < goLen p then
            some (if 20 < goLen p ∧ firstUpper p then p ++ ['.'] else p)
          else none)
      else
        ((splitSub text (goS "; ")).map trimSpace).filter
          (fun p => decide (p ≠ [] ∧ 5 < goLen p))
    else items2
  if items3 = [] then [text] else items3

/-- Final cleanup pass of splitByBullets: trim each item, drop empty and
short items, drop items already seen, in order. -/
def cleanupAux (seen : List (List Char)) : List (List Char) → List (List Char)
  | [] => []
  | item0 :: rest =>
    let item := trimSpace item0
    if item = [] ∨ goLen item < 3 then cleanupAux seen rest
    else if item ∈ seen then cleanupAux seen rest
    else item :: cleanupAux (item :: seen) rest

/-- splitByBullets from pkg/client: split loosely delimited text into a
deduplicated ordered list of items. -/
def splitByBullets (text0 : List Char) : List (List Char) :=
  cleanupAux [] (preItems text0)

/-- First-seen-order deduplication, the specification-side description of
the cleanup pass: keep an element at its first occurrence only. -/
def dedupFS (seen : List (List Char)) : List (List Char) → List (List Char)
  | [] => []
  | x :: rest => if x ∈ seen then dedupFS seen rest else x :: dedupFS (x :: seen) rest

/-- Meta-description verdict rule of parseProfile: when the meta description
contains "is " and ends with a period, take the final word minus its
trailing period and map Jew/Jewish to "Jew" and a word containing "Not" to
"Not a Jew"; otherwise yield the empty verdict. -/
def verdictFromMeta (metaDesc0 : List Char) : List Char :=
  let metaDesc := trimSpace metaDesc0
  if containsSub metaDesc (goS "is ") ∧ (goS ".").isSuffixOf metaDesc then
    let words := splitSub metaDesc (goS " ")
    if 2 < words.length then
      let lastWord := trimSufSub (words.getLastD []) (goS ".")
      if lastWord = goS "Jew" ∨ lastWord = goS "Jewish" then goS "Jew"
      else if containsSub lastWord (goS "Not") then goS "Not a Jew"
      else []
    else []
  else []

/-- Sequential cut-index computation of the description stage: starting from
the text length, lower the cut to each label index that is positive and
below the current cut, in the order verdict, pros, cons. -/
def cutCalc (len : Nat) (vIdx pIdx cIdx : Option Nat) : Nat :=
  let cut := len
  let cut := match vIdx with
    | some i => if 0 < i ∧ i < cut then i else cut
    | none => cut
  let cut := match pIdx with
    | some i => if 0 < i ∧ i < cut then i else cut
    | none => cut
  match cIdx with
  | some i => if 0 < i ∧ i < cut then i else cut
  | none => cut

/-- Description extraction from the profileBody container text, from
parseProfile: trim, require more than 50 bytes, normalise line breaks,
and cut before the last occurrences of the labels "verdict:", "pros:",
"cons:" (case-insensitive, only at positive offsets); `none` when the
stage does not set a description. -/
def descFromBody (fullText0 : List Char) : Option (List Char) :=
  let fullText := trimSpace fullText0
  if 50 < goLen fullText then
    let fullText := replaceAllSub (replaceAllSub fullText (goS "\r\n") (goS "\n")) (goS "\r") (goS "\n")
    let low := toLowerCs fullText
    let cutIndex := cutCalc fullText.length (lastIdxFrom low (goS "verdict:"))
      (lastIdxFrom low (goS "pros:")) (lastIdxFrom low (goS "cons:"))
    let fullText := if cutIndex < fullText.length then fullText.take cutIndex else fullText
    some (trimSpace fullText)
  else none

/-- The three description labels searched case-insensitively. -/
def descLabels : List (List Char) := [goS "verdict:", goS "pros:", goS "cons:"]

/-- All positive offsets at which some description label occurs in the
lowercased text. -/
def posLabelOccs (low : List Char) : List Nat :=
  (descLabels.flatMap (fun lab => occIdxs low lab)).filter (fun i => decide (0 < i))

/-- Profile from pkg/models/profile.go.  Fields carry the JSON names
name, url, verdict, description, pros, cons, score, category, image_url,
created_at, updated_at.  The score field (float64 in the source, holding
the integral fetch identifier) is modelled as a natural number; timestamps
are modelled as naturals as described in the file header. -/
structure Profile where
  name : List Char
  url : List Char
  verdict : List Char
  description : List Char
  pros : List (List Char)
  cons : List (List Char)
  score : Nat
  category : List Char
  imageURL : List Char
  createdAt : Nat
  updatedAt : Nat
deriving DecidableEq, Inhabited

/-- The in-memory record set of the harvest coordinator (Go
map[string]*Profile), as an association list keyed by profile name. -/
abbrev PMap : Type := List (List Char × Profile)

/-- Go map lookup. -/
def lookupP (m : PMap) (k : List Char) : Option Profile :=
  match (List.find? (fun e => decide (e.1 = k)) m : Option (List Char × Profile)) with
  | some e => some e.2
  | none => none

/-- Go map assignment: replace the entry in place when the key is present,
append otherwise. -/
def insertP (m : PMap) (k : List Char) (v : Profile) : PMap :=
  if (lookupP m k).isSome then
    List.map (fun e => if e.1 = k then (k, v) else e) m
  else
    m ++ [(k, v)]

/-- Keys of the record set. -/
def keysP (m : PMap) : List (List Char) :=
  List.map (fun e => e.1) m

/-- The change test of the merge step in ScrapeAll: any of verdict,
description, pros count, cons count differs between the stored and the
fetched record. -/
def profileChanged (ex p : Profile) : Prop :=
  ex.verdict ≠ p.verdict ∨ ex.description ≠ p.description ∨
  ex.pros.length ≠ p.pros.length ∨ ex.cons.length ≠ p.cons.length

instance (ex p : Profile) : Decidable (profileChanged ex p) := by
  unfold profileChanged; infer_instance

/-- Classification of one merged record in ScrapeAll. -/
inductive MergeClass where
  | isNew
  | isUpdated
  | isUnchanged
deriving DecidableEq

/-- The serialized merge step of ScrapeAll (the critical section under the
client mutex): look the fetched profile up by name; absent means insert and
classify new; present and changed means replace with the original createdAt
preserved and updatedAt set to the merge time `now`; present and unchanged
means no mutation. -/
def mergeStep (m : PMap) (p : Profile) (now : Nat) : PMap × MergeClass :=
  match lookupP m p.name with
  | none => (insertP m p.name p, MergeClass.isNew)
  | some ex =>
    if profileChanged ex p then
      (insertP m p.name { p with createdAt := ex.createdAt, updatedAt := now },
       MergeClass.isUpdated)
    else (m, MergeClass.isUnchanged)

/-- Coordinator state: the record set and the atomic counters of ScrapeAll. -/
structure ScrapeState where
  profiles : PMap
  succ : Nat
  fail : Nat
  skip : Nat
  newC : Nat
  updC : Nat
  unch : Nat

/-- One fetch outcome handed to the coordinator: the numeric identifier, the
result of scrapeProfile (`none` for a transport error), and the clock value
at merge time. -/
structure FetchInput where
  id : Nat
  res : Option Profile
  now : Nat

/-- Processing of one completed fetch in ScrapeAll: errors count failed;
an empty or synthetic identity ("Profile <id>") counts skipped; otherwise
the success counter rises and the merge step classifies the record. -/
def processResult (s : ScrapeState) (inp : FetchInput) : ScrapeState :=
  match inp.res with
  | none => { s with fail := s.fail + 1 }
  | some p =>
    if p.name = [] ∨ p.name = goS "Profile " ++ natChars inp.id then
      { s with skip := s.skip + 1 }
    else
      let s1 := { s with succ := s.succ + 1 }
      let out := mergeStep s.profiles p inp.now
      match out.2 with
      | MergeClass.isNew => { s1 with profiles := out.1, newC := s1.newC + 1 }
      | MergeClass.isUpdated => { s1 with profiles := out.1, updC := s1.updC + 1 }
      | MergeClass.isUnchanged => { s1 with profiles := out.1, unch := s1.unch + 1 }

/-- The dispatch loop of ScrapeAll, serialized (each dispatched fetch
completes and merges before the next dispatch check, modelling the mutex
around the merge and atomic counter reads): before dispatching an
identifier the loop stops if the success counter has reached the target
cardinality.  Returns the final state and the list of dispatched
identifiers. -/
def scrapeLoop (target : Nat) (s : ScrapeState) : List FetchInput → ScrapeState × List Nat
  | [] => (s, [])
  | inp :: rest =>
    if target ≤ s.succ then (s, [])
    else
      let out := scrapeLoop target (processResult s inp) rest
      (out.1, inp.id :: out.2)

/-- Initial coordinator state of a run: the record set loaded from disk in
incremental mode (empty otherwise) and zeroed counters. -/
def initState (preloaded : PMap) : ScrapeState :=
  { profiles := preloaded, succ := 0, fail := 0, skip := 0,
    newC := 0, updC := 0, unch := 0 }

/-- Timestamp sanity of a record set at clock value t: every stored record
was created no later than updated, and updated no later than t. -/
def TsInv (t : Nat) (m : PMap) : Prop :=
  ∀ e ∈ m, (e : List Char × Profile).2.createdAt ≤ e.2.updatedAt ∧ e.2.updatedAt ≤ t

/-- Well-timed input sequence starting at clock t: merge times are
monotone, and every fetched profile carries equal createdAt and updatedAt
(as scrapeProfile sets them) no later than its merge time. -/
def wellTimed : Nat → List FetchInput → Prop
  | _, [] => True
  | t, inp :: rest =>
    t ≤ inp.now ∧
    (∀ p, inp.res = some p → p.createdAt = p.updatedAt ∧ p.updatedAt ≤ inp.now) ∧
    wellTimed inp.now rest

/-- A block element scanned by the verdict extraction (font, div, b, p):
its text, its parent text, and whether the parent selection is non-empty. -/
structure VElem where
  text : List Char
  parentText : List Char
  parentPresent : Bool

/-- A list item element (li): its text and the text of its nearest
div/td/ul ancestor. -/
structure LiItem where
  text : List Char
  parentText : List Char

/-- The parsed page as seen through the goquery selections that
parseProfile performs, one field per selector. -/
structure Doc where
  title : List Char
  h1s : List (List Char)
  metaDesc : Option (List Char)
  metaKeywords : Option (List Char)
  verdictElems : List VElem
  imgSrcImg : Option (List Char)
  profileBody : Option (List Char)
  altBlocks : List (List Char)
  tableCells : List (List Char)
  htmlStr : Option (List Char)
  domBlocks : List (List Char)
  listItems : List LiItem
  catElems : List (List Char)
  ogImage : Option (List Char)
  imageSrcLink : Option (List Char)
  imgTags : List (List Char)

/-- Name extraction: first segment of the title before " - ", trimmed, with
the site prefix removed; if that is empty, the last non-empty h1 text. -/
def extractName (d : Doc) (cur0 : List Char) : List Char :=
  let n1 :=
    if d.title ≠ [] then
      trimPreSub (trimSpace ((splitSub d.title (goS " - ")).headD [])) (goS "Jew or Not Jew: ")
    else cur0
  if n1 = [] then
    d.h1s.foldl (fun cur t =>
      let name := trimSpace t
      if name ≠ [] then name else cur) n1
  else n1

/-- One step of the page-content verdict scan over font/div/b/p elements:
a "verdict:" label, a short verdict heading whose sibling text is short, or
a short exact verdict phrase; a later matching element overwrites an
earlier value, as the goquery Each callback does. -/
def verdictElemStep (cur : List Char) (e : VElem) : List Char :=
  let text := trimSpace e.text
  let lcText := toLowerCs text
  if containsSub lcText (goS "verdict:") = true then
    match (splitN2 text (goS ":")).2 with
    | some after =>
      let verdict := trimSpace after
      if verdict ≠ [] then verdict else cur
    | none => cur
  else if containsSub lcText (goS "verdict") = true ∧ goLen text < 30 then
    if e.parentPresent then
      let sib := trimSpace (replaceFirstSub (trimSpace e.parentText) text)
      if sib ≠ [] ∧ goLen sib < 30 then sib else cur
    else cur
  else if (lcText = goS "jew" ∨ lcText = goS "not a jew" ∨ lcText = goS "barely a jew") ∧
      goLen text < 30 then
    text
  else cur

/-- The verdict cascade of parseProfile: meta description, page content
scan, then inference from the img/ image path. -/
def extractVerdict (d : Doc) : List Char :=
  let v1 := match d.metaDesc with
    | some m => if m ≠ [] then verdictFromMeta m else []
    | none => []
  let v2 := if v1 = [] then d.verdictElems.foldl verdictElemStep [] else v1
  if v2 = [] then
    match d.imgSrcImg with
    | some u =>
      if u ≠ [] then
        if containsSub u (goS "verified_jew") = true then goS "Jew"
        else if containsSub u (goS "not_a_jew") = true then goS "Not a Jew"
        else []
      else []
    | none => []
  else v2

/-- The description cascade of parseProfile: the profileBody container,
then substantial alternate blocks, then the meta description, then the
largest qualifying table cell; each fallback runs only below its
staggered length threshold (50, 30, 100). -/
def extractDescription (d : Doc) (desc0 : List Char) : List Char :=
  let d1 := match d.profileBody with
    | some bodyText => (descFromBody bodyText).getD desc0
    | none => desc0
  let d2 :=
    if d1 = [] ∨ goLen d1 < 50 then
      match d.altBlocks.find? (fun t0 =>
        let text := trimSpace t0
        let lowerText := toLowerCs text
        !containsSub lowerText (goS "verdict:") && !containsSub lowerText (goS "pros:") &&
        !containsSub lowerText (goS "cons:") && decide (100 < goLen text)) with
      | some t0 => trimSpace t0
      | none => d1
    else d1
  let d3 :=
    if d2 = [] ∨ goLen d2 < 30 then
      match d.metaDesc with
      | some m0 =>
        if m0 ≠ [] ∧ 10 < goLen m0 then
          if (goS "JewOrNotJew.com:").isPrefixOf m0 then
            trimSpace (m0.drop (goS "JewOrNotJew.com:").length)
          else m0
        else d2
      | none => d2
    else d2
  if d3 = [] ∨ goLen d3 < 100 then
    let largest := d.tableCells.foldl (fun best t0 =>
      let text := trimSpace t0
      let lcText := toLowerCs text
      if !containsSub lcText (goS "verdict:") && !containsSub lcText (goS "pros:") &&
         !containsSub lcText (goS "cons:") && decide (goLen best < goLen text) then text
      else best) []
    if 100 < goLen largest then largest else d3
  else d3

/-- Modelled from the Go regular expression match at one candidate start
for the pros pattern: after the label (of the given length) and a greedy
white-space run, the lazy dot group captures up to the first
case-insensitive "cons", or to the end of input; the dot cannot cross a
newline (RE2 semantics). -/
def prosTryAt (html : List Char) (i matchLen : Nat) : Option (List Char) :=
  let body := (html.drop (i + matchLen)).dropWhile isRegexSpace
  let lineLen := (body.takeWhile (fun c => !(c == '\n'))).length
  match firstIdxFrom (toLowerCs body) (goS "cons") with
  | some j => if j ≤ lineLen then some (body.take j) else none
  | none => if lineLen = body.length then some body else none

/-- Modelled from the Go regex (?i)(?:Pros|PROS|Pros:)[\s\n]*(.*?)(?:Cons|CONS|Cons:|$):
the captured group of the leftmost match, trying candidate starts at each
case-insensitive "pros" occurrence with the four-character alternative
first and the five-character "pros:" alternative second. -/
def prosCapture (html : List Char) : Option (List Char) :=
  (occIdxs (toLowerCs html) (goS "pros")).findSome? (fun i =>
    match prosTryAt html i 4 with
    | some r => some r
    | none =>
      if (goS "pros:").isPrefixOf ((toLowerCs html).drop i) then prosTryAt html i 5
      else none)

/-- Modelled from the Go regular expression match at one candidate start
for the cons pattern: after the label and a greedy white-space run, the
greedy non-colon group captures to the end of input, or backtracks to leave
a case-insensitive "Verdict" directly before the following colon. -/
def consTryAt (html : List Char) (i matchLen : Nat) : Option (List Char) :=
  let body := (html.drop (i + matchLen)).dropWhile isRegexSpace
  let run := body.takeWhile (fun c => !(c == ':'))
  if run.length = body.length then some run
  else if 7 ≤ run.length ∧ (goS "verdict").isSuffixOf (toLowerCs run) then
    some (run.take (run.length - 7))
  else none

/-- Modelled from the Go regex (?i)(?:Cons|CONS|Cons:)[\s\n]*([^:]*)(?:\s*Verdict:|$):
the captured group of the leftmost match, trying candidate starts at each
case-insensitive "cons" occurrence. -/
def consCapture (html : List Char) : Option (List Char) :=
  (occIdxs (toLowerCs html) (goS "cons")).findSome? (fun i =>
    match consTryAt html i 4 with
    | some r => some r
    | none =>
      if (goS "cons:").isPrefixOf ((toLowerCs html).drop i) then consTryAt html i 5
      else none)

/-- Pros and cons accumulation state of parseProfile: the two item lists
and the prosFound/consFound flags. -/
structure PCState where
  pros : List (List Char)
  cons : List (List Char)
  prosFound : Bool
  consFound : Bool

/-- Filter and append one candidate pro item from the regex stage. -/
def prosRegexStep (st : PCState) (pro0 : List Char) : PCState :=
  let pro := trimSpace pro0
  if pro ≠ [] ∧ 3 < goLen pro ∧ containsSub (toLowerCs pro) (goS "cons:") = false then
    { st with pros := st.pros ++ [pro], prosFound := true }
  else st

/-- Filter and append one candidate con item from the regex stage. -/
def consRegexStep (st : PCState) (con0 : List Char) : PCState :=
  let con := trimSpace con0
  if con ≠ [] ∧ 10 < goLen con ∧ containsSub con (goS "idered") = false then
    if containsSub con (goS "&#") = false ∧ containsSub con (goS "&lt;") = false ∧
       containsSub con (goS "&gt;") = false ∧ containsSub con (goS "<span") = false then
      { st with cons := st.cons ++ [con], consFound := true }
    else st
  else st

/-- One step of the DOM-based pros/cons extraction over div/td/span/p/font
blocks, guarded by the prosFound/consFound flags. -/
def domBlockStep (st0 : PCState) (t0 : List Char) : PCState :=
  let text := trimSpace t0
  let lowerText := toLowerCs text
  let st :=
    if st0.prosFound = false ∧
        (containsSub lowerText (goS "pros:") = true ∨ (goS "pros").isPrefixOf lowerText = true) then
      let prosList := match (splitN2 text (goS ":")).2 with
        | some after => after
        | none => trimPreSub text (goS "Pros")
      (splitByBullets prosList).foldl (fun acc pro0 =>
        let pro := trimSpace pro0
        if pro ≠ [] ∧ 3 < goLen pro ∧ containsSub (toLowerCs pro) (goS "cons") = false then
          { acc with pros := acc.pros ++ [pro], prosFound := true }
        else acc) st0
    else st0
  if st.consFound = false ∧
      (containsSub lowerText (goS "cons:") = true ∨ (goS "cons").isPrefixOf lowerText = true) then
    let consList := match (splitN2 text (goS ":")).2 with
      | some after => after
      | none => trimPreSub text (goS "Cons")
    (splitByBullets consList).foldl (fun acc con0 =>
      let con := trimSpace con0
      if con ≠ [] ∧ 3 < goLen con then
        if containsSub con (goS "&#") = false ∧ containsSub con (goS "&lt;") = false ∧
           containsSub con (goS "&gt;") = false ∧ containsSub con (goS "<span") = false then
          { acc with cons := acc.cons ++ [con], consFound := true }
        else acc
      else acc) st
  else st

/-- One step of the list-item pros/cons extraction: classify an li element
by its ancestor text, skipping duplicates and entity fragments. -/
def liStep (st : PCState) (li : LiItem) : PCState :=
  let text := trimSpace li.text
  if text ≠ [] ∧ 3 < goLen text then
    let parentText := toLowerCs li.parentText
    if containsSub parentText (goS "pros") = true ∧
        containsSub (toLowerCs text) (goS "cons:") = false then
      if text ∈ st.pros then st else { st with pros := st.pros ++ [text] }
    else if containsSub parentText (goS "cons") = true then
      if text ∈ st.cons ∨ containsSub text (goS "&#") = true ∨
         containsSub text (goS "&lt;") = true ∨ containsSub text (goS "&gt;") = true ∨
         containsSub text (goS "<span") = true then st
      else { st with cons := st.cons ++ [text] }
    else st
  else st

/-- Worker for `removeTags`: remove each span from a < to the first
following >, the matches of the Go tag regex. -/
def removeTagsAux : Nat → List Char → List Char
  | 0, s => s
  | fuel + 1, s =>
    match s.findIdx? (fun c => c == '<') with
    | none => s
    | some i =>
      match ((s.drop i).drop 1).findIdx? (fun c => c == '>') with
      | none => s
      | some j => s.take i ++ removeTagsAux fuel ((s.drop i).drop (j + 2))

/-- HTML tag removal of cleanHTML. -/
def removeTags (s : List Char) : List Char :=
  removeTagsAux (s.length + 1) s

/-- Worker for `collapseWs`: replace each maximal run of regex white space
by one space. -/
def collapseWsAux : Nat → List Char → List Char
  | 0, s => s
  | _ + 1, [] => []
  | fuel + 1, c :: rest =>
    if isRegexSpace c then ' ' :: collapseWsAux fuel (rest.dropWhile isRegexSpace)
    else c :: collapseWsAux fuel rest

/-- White-space collapsing of cleanHTML. -/
def collapseWs (s : List Char) : List Char :=
  collapseWsAux (s.length + 1) s

/-- cleanHTML from pkg/client: strip tags, normalise entities and white
space, trim. -/
def cleanHTML (input : List Char) : List Char :=
  let w := removeTags input
  let w := replaceAllSub w (goS "&nbsp;") (goS " ")
  let w := replaceAllSub w (goS "\r\n") (goS " ")
  let w := replaceAllSub w (goS "\n") (goS " ")
  let w := replaceAllSub w (goS "&amp;") (goS "&")
  let w := replaceAllSub w (goS "&lt;") (goS "<")
  let w := replaceAllSub w (goS "&gt;") (goS ">")
  let w := replaceAllSub w (goS "&quot;") (goS "\x22")
  let w := replaceAllSub w (goS "&#39;") (goS "\x27")
  let w := replaceAllSub w (goS "&#34;") (goS "\x22")
  trimSpace (collapseWs w)

/-- Go strings.Trim(s, "."): drop leading and trailing periods. -/
def trimDots (s : List Char) : List Char :=
  ((s.dropWhile (fun c => c == '.')).reverse.dropWhile (fun c => c == '.')).reverse

/-- One step of the explicit category scan over td font/span/div/p/strong/
b/h3 elements: a "Category:" label or a "Category" prefix, cleaned of
markup and trailing periods; later matches overwrite earlier ones. -/
def catElemStep (cur : List Char) (t0 : List Char) : List Char :=
  let text := trimSpace t0
  if containsSub text (goS "Category:") = true then
    match (splitN2 text (goS "Category:")).2 with
    | some after =>
      let category := trimDots (cleanHTML (trimSpace after))
      if category ≠ [] then category else cur
    | none => cur
  else if (goS "Category").isPrefixOf text then
    match (splitN2 text (goS " ")).2 with
    | some after =>
      let category := trimDots (cleanHTML (trimSpace after))
      if category ≠ [] then category else cur
    | none => cur
  else cur

/-- The fixed vocabulary of common categories matched against keyword
metadata, in source order. -/
def commonCats : List (List Char) :=
  [goS "Actor", goS "Actress", goS "Entertainment", goS "Politics", goS "Sports",
   goS "Music", goS "Science", goS "Business", goS "Religion", goS "History",
   goS "Art", goS "Literature", goS "Media", goS "Academia", goS "Military",
   goS "Fashion", goS "Technology", goS "Comedy", goS "Royalty", goS "Film",
   goS "Television"]

/-- Category inference from the keywords meta tag: the first category
contained (case-insensitively) in some comma-separated keyword. -/
def inferFromKeywords (kws : List Char) : List Char :=
  (splitSub kws (goS ",")).foldl (fun cur kw0 =>
    if cur ≠ [] then cur
    else
      let kw := trimSpace kw0
      match commonCats.find? (fun cat => containsSub (toLowerCs kw) (toLowerCs cat)) with
      | some cat => cat
      | none => []) []

/-- The clue-to-category table of parseProfile, written in declaration
order.  In the source this is a Go map whose range order is randomised;
the declaration order is one admissible order of that known
nondeterminism. -/
def categoryClues : List (List Char × List Char) :=
  [(goS "actor", goS "Entertainment"), (goS "actress", goS "Entertainment"),
   (goS "movie", goS "Entertainment"), (goS "film", goS "Entertainment"),
   (goS "directed", goS "Entertainment"), (goS "singer", goS "Music"),
   (goS "musician", goS "Music"), (goS "album", goS "Music"),
   (goS "song", goS "Music"), (goS "band", goS "Music"),
   (goS "political", goS "Politics"), (goS "politician", goS "Politics"),
   (goS "president", goS "Politics"), (goS "senator", goS "Politics"),
   (goS "parliament", goS "Politics"), (goS "scientist", goS "Science"),
   (goS "researcher", goS "Science"), (goS "professor", goS "Academia"),
   (goS "author", goS "Literature"), (goS "writer", goS "Literature"),
   (goS "book", goS "Literature"), (goS "athlete", goS "Sports"),
   (goS "player", goS "Sports"), (goS "baseball", goS "Sports"),
   (goS "football", goS "Sports"), (goS "basketball", goS "Sports"),
   (goS "soccer", goS "Sports"), (goS "tennis", goS "Sports"),
   (goS "religious", goS "Religion"), (goS "rabbi", goS "Religion"),
   (goS "priest", goS "Religion"), (goS "businessman", goS "Business"),
   (goS "entrepreneur", goS "Business"), (goS "company", goS "Business"),
   (goS "CEO", goS "Business"), (goS "comedian", goS "Comedy"),
   (goS "comedy", goS "Comedy")]

/-- Category inference from the description text: first clue of the table
contained in the lowercased description. -/
def inferFromDesc (desc : List Char) : List Char :=
  let lowerDesc := toLowerCs desc
  match categoryClues.find? (fun e => containsSub lowerDesc e.1) with
  | some e => e.2
  | none => []

/-- The category cascade of parseProfile: explicit label scan, keyword
metadata, description clues. -/
def extractCategory (d : Doc) (desc cat0 : List Char) : List Char :=
  let c1 := d.catElems.foldl catElemStep cat0
  if c1 = [] then
    let c2 := match d.metaKeywords with
      | some kws => if kws ≠ [] then inferFromKeywords kws else []
      | none => []
    if c2 = [] ∧ desc ≠ [] then inferFromDesc desc else c2
  else c1

/-- Resolution of an image reference against the base URL by the prefix
rule of parseProfile. -/
def resolveImgURL (baseURL u : List Char) : List Char :=
  if (goS "http").isPrefixOf u then u
  else if (goS "/").isPrefixOf u then baseURL ++ u
  else baseURL ++ goS "/" ++ u

/-- The image cascade of parseProfile: og:image metadata, image_src link,
then the first img tag whose path contains a known fragment. -/
def extractImage (baseURL : List Char) (d : Doc) (img0 : List Char) : List Char :=
  let i1 := match d.ogImage with
    | some og => if og ≠ [] then resolveImgURL baseURL og else img0
    | none => img0
  let i2 :=
    if i1 = [] then
      match d.imageSrcLink with
      | some u => if u ≠ [] then resolveImgURL baseURL u else i1
      | none => i1
    else i1
  if i2 = [] then
    match d.imgTags.find? (fun src => decide (src ≠ []) &&
        (containsSub (toLowerCs src) (goS "people") || containsSub (toLowerCs src) (goS "img") ||
         containsSub (toLowerCs src) (goS "images"))) with
    | some src => resolveImgURL baseURL src
    | none => i2
  else i2

/-- parseProfile from pkg/client: populate name, verdict, description,
pros, cons, category and image URL of the seed profile from the parsed
document; url, score and the timestamps are left untouched. -/
def parseProfile (baseURL : List Char) (d : Doc) (p : Profile) : Profile :=
  let name := extractName d p.name
  let verdictText := extractVerdict d
  let verdict := if verdictText ≠ [] then verdictText else p.verdict
  let desc := extractDescription d p.description
  let st0 : PCState := { pros := p.pros, cons := p.cons, prosFound := false, consFound := false }
  let st1 := match d.htmlStr with
    | some html =>
      let stA := match prosCapture html with
        | some prosContent => (splitByBullets prosContent).foldl prosRegexStep st0
        | none => st0
      match consCapture html with
      | some consContent =>
        if 10 < goLen consContent ∧ goLen consContent < 1000 then
          (splitByBullets consContent).foldl consRegexStep stA
        else stA
      | none => stA
    | none => st0
  let st2 :=
    if st1.prosFound = false ∨ st1.consFound = false then d.domBlocks.foldl domBlockStep st1
    else st1
  let st3 := d.listItems.foldl liStep st2
  let category := extractCategory d desc p.category
  let imageURL := extractImage baseURL d p.imageURL
  { p with name := name, verdict := verdict, description := desc,
           pros := st3.pros, cons := st3.cons, category := category, imageURL := imageURL }

/-- scrapeProfile from pkg/client, after a successful fetch of the given
document: seed the profile with the page URL and the identifier stored in
the score field, extract, substitute the synthetic "Profile <id>" identity
when the name is empty, and set both timestamps to the current clock. -/
def scrapeParse (baseURL : List Char) (d : Doc) (id : Nat) (now : Nat) : Profile :=
  let seed : Profile :=
    { name := [],
      url := baseURL ++ goS "/profile.jsp?ID=" ++ natChars id,
      verdict := [], description := [], pros := [], cons := [], score := id,
      category := [], imageURL := [], createdAt := 0, updatedAt := 0 }
  let p := parseProfile baseURL d seed
  let p := if p.name = [] then { p with name := goS "Profile " ++ natChars id } else p
  { p with createdAt := now, updatedAt := now }

/-- The serialisation goquery produces for an empty input document. -/
def emptyHTML : List Char := goS "<html><head></head><body></body></html>"

/-- The document model of an empty input: every selection is empty, every
attribute absent, and the serialised html is the empty skeleton. -/
def emptyDoc : Doc :=
  { title := [], h1s := [], metaDesc := none, metaKeywords := none,
    verdictElems := [], imgSrcImg := none, profileBody := none, altBlocks := [],
    tableCells := [], htmlStr := some emptyHTML, domBlocks := [], listItems := [],
    catElems := [], ogImage := none, imageSrcLink := none, imgTags := [] }

/-- The body text as the description stage sees it after trimming and line
break normalisation. -/
def normBody (t : List Char) : List Char :=
  replaceAllSub (replaceAllSub (trimSpace t) (goS "\r\n") (goS "\n")) (goS "\r") (goS "\n")

/-- A stored record used by concrete witness runs. -/
def pStored : Profile :=
  { name := goS "Ada", url := goS "u", verdict := goS "Jew", description := goS "d",
    pros := [], cons := [], score := 1, category := [], imageURL := [],
    createdAt := 3, updatedAt := 3 }

/-- A freshly fetched record with the same identity as `pStored` but a
different verdict. -/
def pFetched : Profile :=
  { pStored with verdict := goS "Not a Jew", createdAt := 5, updatedAt := 5 }

/-- A freshly fetched record with a new identity. -/
def pOther : Profile :=
  { pStored with name := goS "Bob", createdAt := 5, updatedAt := 5 }

/-- A one-record stored set keyed by the identity of `pStored`. -/
def mW : PMap := [(goS "Ada", pStored)]

theorem lookupP_nil (k : List Char) : lookupP [] k = none := rfl

theorem lookupP_cons (e : List Char × Profile) (t : PMap) (k : List Char) :
    lookupP (e :: t) k = if e.1 = k then some e.2 else lookupP t k := by
  by_cases h : e.1 = k
  · simp [lookupP, List.find?_cons_of_pos, h]
  · simp [lookupP, List.find?_cons_of_neg, h]

theorem lookupP_mem (m : PMap) (k : List Char) (v : Profile)
    (h : lookupP m k = some v) : (k, v) ∈ m := by
  induction m with
  | nil => simp [lookupP] at h
  | cons e t ih =>
    rw [lookupP_cons] at h
    by_cases he : e.1 = k
    · rw [if_pos he] at h
      have hev : (k, v) = e := by
        obtain ⟨k1, v1⟩ := e
        simp_all
      exact List.mem_cons.mpr (Or.inl hev)
    · rw [if_neg he] at h
      exact List.mem_cons_of_mem _ (ih h)

theorem lookupP_isSome_iff (m : PMap) (k : List Char) :
    (lookupP m k).isSome = true ↔ k ∈ keysP m := by
  induction m with
  | nil => simp [lookupP, keysP]
  | cons e t ih =>
    rw [lookupP_cons]
    by_cases he : e.1 = k
    · simp [he, keysP]
    · simp [he, keysP, Ne.symm he] at ih ⊢
      exact ih

theorem lookupP_mapReplace (m : PMap) (k : List Char) (v : Profile)
    (h : (lookupP m k).isSome = true) :
    lookupP (List.map (fun e => if e.1 = k then (k, v) else e) m) k = some v := by
  induction m with
  | nil => simp [lookupP] at h
  | cons e t ih =>
    rw [lookupP_cons] at h
    by_cases he : e.1 = k
    · simp only [List.map_cons, if_pos he, lookupP_cons]
      simp
    · rw [if_neg he] at h
      simp only [List.map_cons, if_neg he, lookupP_cons, if_neg he]
      exact ih h

theorem lookupP_append_single (m : PMap) (k : List Char) (v : Profile)
    (h : lookupP m k = none) : lookupP (m ++ [(k, v)]) k = some v := by
  induction m with
  | nil => simp [lookupP_cons]
  | cons e t ih =>
    rw [lookupP_cons] at h
    by_cases he : e.1 = k
    · rw [if_pos he] at h
      exact absurd h (by simp)
    · rw [if_neg he] at h
      rw [List.cons_append, lookupP_cons, if_neg he]
      exact ih h

theorem lookupP_insertP_self (m : PMap) (k : List Char) (v : Profile) :
    lookupP (insertP m k v) k = some v := by
  unfold insertP
  by_cases h : (lookupP m k).isSome = true
  · rw [if_pos h]
    exact lookupP_mapReplace m k v h
  · rw [if_neg h]
    exact lookupP_append_single m k v (Option.not_isSome_iff_eq_none.mp h)

theorem mem_insertP (m : PMap) (k : List Char) (v : Profile)
    (e : List Char × Profile) (h : e ∈ insertP m k v) : e ∈ m ∨ e = (k, v) := by
  unfold insertP at h
  by_cases hs : (lookupP m k).isSome = true
  · rw [if_pos hs] at h
    obtain ⟨a, ha, hae⟩ := List.mem_map.mp h
    by_cases hk : a.1 = k
    · right
      rw [if_pos hk] at hae
      exact hae.symm
    · left
      rw [if_neg hk] at hae
      exact hae ▸ ha
  · rw [if_neg hs] at h
    rcases List.mem_append.mp h with h1 | h1
    · exact Or.inl h1
    · exact Or.inr (List.mem_singleton.mp h1)

theorem keysP_mapReplace (m : PMap) (k : List Char) (v : Profile) :
    keysP (List.map (fun e => if e.1 = k then (k, v) else e) m) = keysP m := by
  induction m with
  | nil => rfl
  | cons e t ih =>
    by_cases he : e.1 = k
    · simp only [List.map_cons, if_pos he, keysP] at ih ⊢
      simp [ih, he]
    · simp only [List.map_cons, if_neg he, keysP] at ih ⊢
      simp [ih]

theorem mem_keysP_insertP (m : PMap) (k : List Char) (v : Profile) (k2 : List Char) :
    k2 ∈ keysP (insertP m k v) ↔ k2 ∈ keysP m ∨ k2 = k := by
  unfold insertP
  by_cases hs : (lookupP m k).isSome = true
  · rw [if_pos hs, keysP_mapReplace]
    have hk : k ∈ keysP m := (lookupP_isSome_iff m k).mp hs
    constructor
    · exact Or.inl
    · rintro (h | rfl)
      · exact h
      · exact hk
  · rw [if_neg hs]
    simp [keysP]

/-- Claim C3 (counterexample): splitting "A • B • C" does not yield
["A","B","C"]; the cleanup pass drops every item, because each is shorter
than the three-byte minimum, so the result is empty. -/
theorem splitter_roundtrip_counterexample :
    splitByBullets (goS "A • B • C") = [] ∧
    splitByBullets (goS "A • B • C") ≠ [goS "A", goS "B", goS "C"] := by
  exact ⟨by decide, by decide⟩

/-- Claim C3 (amended): the splitter drops items shorter than three bytes,
so "A • B • C" and "X • X • Y" both split to the empty sequence; a single
sentence without delimiters is returned whole; for items of three or more
bytes the round trip holds and duplicates collapse to the first
occurrence. -/
theorem splitter_roundtrip_amended :
    splitByBullets (goS "A • B • C") = [] ∧
    splitByBullets (goS "single sentence without delimiters") =
      [goS "single sentence without delimiters"] ∧
    splitByBullets (goS "X • X • Y") = [] ∧
    splitByBullets (goS "AAA • BBB • CCC") = [goS "AAA", goS "BBB", goS "CCC"] ∧
    splitByBullets (goS "XXX • XXX • YYY") = [goS "XXX", goS "YYY"] := by
  exact ⟨by decide, by decide, by decide, by decide, by decide⟩

/-- Claim C4 (counterexample): on the meta description
"Jane Doe is Not a Jew." the verdict rule takes the final word "Jew." and
produces the verdict "Jew", not "Not a Jew". -/
theorem verdict_mapping_counterexample :
    verdictFromMeta (goS "Jane Doe is Not a Jew.") = goS "Jew" ∧
    verdictFromMeta (goS "Jane Doe is Not a Jew.") ≠ goS "Not a Jew" := by
  exact ⟨by decide, by decide⟩

/-- Claim C4 (amended): the rule maps the final word minus its trailing
period, so "John Doe is a Jew." gives verdict "Jew",
"Jane Doe is Not a Jew." also gives verdict "Jew" (its final word is
"Jew"), and a description whose final word contains "Not", such as
"Jane Doe is Not.", gives verdict "Not a Jew". -/
theorem verdict_mapping_amended :
    verdictFromMeta (goS "John Doe is a Jew.") = goS "Jew" ∧
    verdictFromMeta (goS "Jane Doe is Not a Jew.") = goS "Jew" ∧
    verdictFromMeta (goS "Jane Doe is Not.") = goS "Not a Jew" := by
  exact ⟨by decide, by decide, by decide⟩

/-- Claim C7: extraction is a total function of the document, and on an
empty document the returned record carries the synthetic identity
"Profile <id>" derived from the fetch identifier, the fetch URL and score,
both timestamps equal to the clock, and every extracted field (verdict,
description, pros, cons, category, image reference) empty. -/
theorem empty_doc_extraction (b : List Char) (id now : Nat) :
    scrapeParse b emptyDoc id now =
      { name := goS "Profile " ++ natChars id,
        url := b ++ goS "/profile.jsp?ID=" ++ natChars id,
        verdict := [], description := [], pros := [], cons := [], score := id,
        category := [], imageURL := [], createdAt := now, updatedAt := now } := rfl

/-- Claim C9: the extractor never writes the score field, and a scraped
record's score equals the numeric fetch identifier, so the outward-facing
score carries the identifier rather than a semantic score. -/
theorem score_carries_identifier (b : List Char) (d : Doc) (p : Profile) (id now : Nat) :
    (parseProfile b d p).score = p.score ∧ (scrapeParse b d id now).score = id := by
  constructor
  · rfl
  · unfold scrapeParse
    dsimp only
    split <;> rfl

/-- Claim C1: for a fetched record whose identity is present in the record
set, the merge step classifies it updated exactly when one of verdict,
description, pros count, cons count differs; in that case the stored entry
becomes the fetched record with the original createdAt preserved and
updatedAt set to the merge time, and otherwise the record set is not
mutated and the classification is unchanged. -/
theorem merge_updated_iff_changed (m : PMap) (p ex : Profile) (now : Nat)
    (h : lookupP m p.name = some ex) :
    ((mergeStep m p now).2 = MergeClass.isUpdated ↔ profileChanged ex p) ∧
    (profileChanged ex p →
      lookupP (mergeStep m p now).1 p.name =
        some { p with createdAt := ex.createdAt, updatedAt := now }) ∧
    (¬ profileChanged ex p →
      (mergeStep m p now).1 = m ∧ (mergeStep m p now).2 = MergeClass.isUnchanged) := by
  unfold mergeStep
  rw [h]
  by_cases hc : profileChanged ex p
  · simp [hc, lookupP_insertP_self]
  · simp [hc]

/-- Concrete run of claim C1's theorem: a stored record and a fetched
record with the same identity and a differing verdict. -/
theorem merge_updated_iff_changed_witness :
    (((mergeStep mW pFetched 7).2 = MergeClass.isUpdated ↔ profileChanged pStored pFetched) ∧
     (profileChanged pStored pFetched →
       lookupP (mergeStep mW pFetched 7).1 pFetched.name =
         some { pFetched with createdAt := pStored.createdAt, updatedAt := 7 }) ∧
     (¬ profileChanged pStored pFetched →
       (mergeStep mW pFetched 7).1 = mW ∧ (mergeStep mW pFetched 7).2 = MergeClass.isUnchanged)) :=
  merge_updated_iff_changed mW pFetched pStored 7 (by decide)

theorem counts_processResult (s : ScrapeState) (inp : FetchInput)
    (h : s.succ = s.newC + s.updC + s.unch) :
    (processResult s inp).succ =
      (processResult s inp).newC + (processResult s inp).updC + (processResult s inp).unch := by
  unfold processResult
  cases hres : inp.res with
  | none => simpa using h
  | some p =>
    dsimp only
    split
    · simpa using h
    · cases hcls : (mergeStep s.profiles p inp.now).2 <;> simp [hcls] <;> omega

theorem counts_scrapeLoop (target : Nat) (inputs : List FetchInput) :
    ∀ s : ScrapeState, s.succ = s.newC + s.updC + s.unch →
      (scrapeLoop target s inputs).1.succ =
        (scrapeLoop target s inputs).1.newC + (scrapeLoop target s inputs).1.updC +
          (scrapeLoop target s inputs).1.unch := by
  induction inputs with
  | nil => intro s h; exact h
  | cons a l ih =>
    intro s h
    unfold scrapeLoop
    split
    · exact h
    · exact ih _ (counts_processResult s a h)

/-- Claim C6: in the serialized model of the dispatch loop, once the count
of records classified new or updated has reached the target cardinality,
no further identifier is dispatched (the loop's stop check fires, because
the success counter dominates the new-plus-updated count). -/
theorem dispatch_stops_at_target (target : Nat) (m0 : PMap) (ins1 ins2 : List FetchInput)
    (h : target ≤ (scrapeLoop target (initState m0) ins1).1.newC +
      (scrapeLoop target (initState m0) ins1).1.updC) :
    (scrapeLoop target (scrapeLoop target (initState m0) ins1).1 ins2).2 = [] := by
  have hc := counts_scrapeLoop target ins1 (initState m0) (by simp [initState])
  have hsucc : target ≤ (scrapeLoop target (initState m0) ins1).1.succ := by omega
  cases ins2 with
  | nil => rfl
  | cons a l =>
    unfold scrapeLoop
    rw [if_pos hsucc]

/-- Concrete run of claim C6's theorem: target one, one new record found,
then a further input that is not dispatched. -/
theorem dispatch_stops_at_target_witness :
    (scrapeLoop 1 (scrapeLoop 1 (initState []) [⟨2, some pOther, 5⟩]).1
      [⟨3, some pFetched, 6⟩]).2 = [] :=
  dispatch_stops_at_target 1 [] [⟨2, some pOther, 5⟩] [⟨3, some pFetched, 6⟩] (by decide)

theorem mem_keysP_mergeStep (m : PMap) (p : Profile) (now : Nat) (k2 : List Char) :
    k2 ∈ keysP (mergeStep m p now).1 ↔ k2 ∈ keysP m ∨ k2 = p.name := by
  unfold mergeStep
  cases h : lookupP m p.name with
  | none => simp [mem_keysP_insertP]
  | some ex =>
    by_cases hc : profileChanged ex p
    · simp [hc, mem_keysP_insertP]
    · have hmem : p.name ∈ keysP m := (lookupP_isSome_iff m p.name).mp (by simp [h])
      simp only [if_neg hc]
      constructor
      · exact Or.inl
      · rintro (h2 | rfl)
        · exact h2
        · exact hmem

theorem mem_keysP_processResult (s : ScrapeState) (inp : FetchInput) (k2 : List Char) :
    (k2 ∈ keysP s.profiles → k2 ∈ keysP (processResult s inp).profiles) ∧
    (k2 ∈ keysP (processResult s inp).profiles →
      k2 ∈ keysP s.profiles ∨ ∃ p, inp.res = some p ∧ k2 = p.name) := by
  unfold processResult
  cases hres : inp.res with
  | none => simp
  | some p =>
    dsimp only
    split
    · exact ⟨fun h2 => h2, fun h2 => Or.inl h2⟩
    · cases hcls : (mergeStep s.profiles p inp.now).2 <;>
      · refine ⟨?_, ?_⟩
        · intro h2
          exact (mem_keysP_mergeStep s.profiles p inp.now k2).mpr (Or.inl h2)
        · intro h2
          rcases (mem_keysP_mergeStep s.profiles p inp.now k2).mp h2 with h3 | h3
          · exact Or.inl h3
          · exact Or.inr ⟨p, rfl, h3⟩

theorem mem_keysP_scrapeLoop (target : Nat) (inputs : List FetchInput) (k2 : List Char) :
    ∀ s : ScrapeState, k2 ∈ keysP s.profiles →
      k2 ∈ keysP (scrapeLoop target s inputs).1.profiles := by
  induction inputs with
  | nil => intro s h; exact h
  | cons a l ih =>
    intro s h
    unfold scrapeLoop
    split
    · exact h
    · exact ih _ ((mem_keysP_processResult s a k2).1 h)

/-- Claim C10: the set of identities in the record set only grows: a
processed fetch result preserves every present identity, an identity
present afterwards was present before or is the fetched record's identity
(insert or in-place replace), and across the whole dispatch loop no
identity is ever removed. -/
theorem identity_set_grows (target : Nat) (s : ScrapeState) (inp : FetchInput)
    (inputs : List FetchInput) (k : List Char) :
    (k ∈ keysP s.profiles → k ∈ keysP (processResult s inp).profiles) ∧
    (k ∈ keysP (processResult s inp).profiles →
      k ∈ keysP s.profiles ∨ ∃ p, inp.res = some p ∧ k = p.name) ∧
    (k ∈ keysP s.profiles → k ∈ keysP (scrapeLoop target s inputs).1.profiles) :=
  ⟨(mem_keysP_processResult s inp k).1, (mem_keysP_processResult s inp k).2,
   fun h => mem_keysP_scrapeLoop target inputs k s h⟩

/-- Concrete run of claim C10's theorem: the stored identity survives the
processing of a fetched record with a new identity and a two-input loop. -/
theorem identity_set_grows_witness :
    goS "Ada" ∈ keysP (processResult (initState mW) ⟨2, some pOther, 5⟩).profiles ∧
    goS "Ada" ∈ keysP (scrapeLoop 9 (initState mW)
      [⟨2, some pOther, 5⟩, ⟨3, some pFetched, 6⟩]).1.profiles :=
  ⟨(identity_set_grows 9 (initState mW) ⟨2, some pOther, 5⟩ [] (goS "Ada")).1 (by decide),
   (identity_set_grows 9 (initState mW) ⟨2, some pOther, 5⟩
      [⟨2, some pOther, 5⟩, ⟨3, some pFetched, 6⟩] (goS "Ada")).2.2 (by decide)⟩

theorem tsInv_mono (t t2 : Nat) (m : PMap) (h : t ≤ t2) (hm : TsInv t m) : TsInv t2 m :=
  fun e he => ⟨(hm e he).1, le_trans (hm e he).2 h⟩

theorem tsInv_mergeStep (t now : Nat) (m : PMap) (p : Profile)
    (hm : TsInv t m) (ht : t ≤ now) (hp1 : p.createdAt = p.updatedAt)
    (hp2 : p.updatedAt ≤ now) :
    TsInv now (mergeStep m p now).1 := by
  unfold mergeStep
  cases h : lookupP m p.name with
  | none =>
    dsimp only
    intro e he
    rcases mem_insertP _ _ _ _ he with h1 | h1
    · exact ⟨(hm e h1).1, le_trans (hm e h1).2 ht⟩
    · subst h1
      exact ⟨le_of_eq hp1, hp2⟩
  | some ex =>
    dsimp only
    by_cases hc : profileChanged ex p
    · rw [if_pos hc]
      dsimp only
      intro e he
      rcases mem_insertP _ _ _ _ he with h1 | h1
      · exact ⟨(hm e h1).1, le_trans (hm e h1).2 ht⟩
      · subst h1
        have hexm := hm (p.name, ex) (lookupP_mem m p.name ex h)
        exact ⟨le_trans hexm.1 (le_trans hexm.2 ht), le_refl now⟩
    · rw [if_neg hc]
      exact fun e he => ⟨(hm e he).1, le_trans (hm e he).2 ht⟩

theorem tsInv_processResult (t : Nat) (s : ScrapeState) (inp : FetchInput)
    (hm : TsInv t s.profiles) (ht : t ≤ inp.now)
    (hres : ∀ p, inp.res = some p → p.createdAt = p.updatedAt ∧ p.updatedAt ≤ inp.now) :
    TsInv inp.now (processResult s inp).profiles := by
  unfold processResult
  cases h : inp.res with
  | none => exact tsInv_mono t inp.now _ ht hm
  | some p =>
    dsimp only
    split
    · exact tsInv_mono t inp.now _ ht hm
    · have hp := hres p h
      cases hcls : (mergeStep s.profiles p inp.now).2 <;>
        exact tsInv_mergeStep t inp.now s.profiles p hm ht hp.1 hp.2

theorem tsInv_scrapeLoop (target : Nat) (inputs : List FetchInput) :
    ∀ (t : Nat) (s : ScrapeState), TsInv t s.profiles → wellTimed t inputs →
      ∃ t2, t ≤ t2 ∧ TsInv t2 (scrapeLoop target s inputs).1.profiles := by
  induction inputs with
  | nil => exact fun t s hm _ => ⟨t, le_refl t, hm⟩
  | cons a l ih =>
    intro t s hm hw
    simp only [wellTimed] at hw
    obtain ⟨hta, hres, hwrest⟩ := hw
    unfold scrapeLoop
    split
    · exact ⟨t, le_refl t, hm⟩
    · obtain ⟨t2, ht2, hinv⟩ :=
        ih a.now (processResult s a) (tsInv_processResult t s a hm hta hres) hwrest
      exact ⟨t2, le_trans hta ht2, hinv⟩

/-- Claim C2: in a well-timed run starting from a record set satisfying the
timestamp sanity condition, every record in the in-memory set satisfies
createdAt less-or-equal updatedAt after any dispatch loop; and whenever the
merge step replaces a record at an existing identity, the stored record
becomes the fetched one with createdAt equal to the previously stored
createdAt and updatedAt set to the fresh merge time. -/
theorem timestamps_invariant :
    (∀ (target t0 : Nat) (s : ScrapeState) (inputs : List FetchInput),
      TsInv t0 s.profiles → wellTimed t0 inputs →
      ∀ e ∈ (scrapeLoop target s inputs).1.profiles,
        (e : List Char × Profile).2.createdAt ≤ e.2.updatedAt) ∧
    (∀ (m : PMap) (p ex : Profile) (now : Nat),
      lookupP m p.name = some ex → profileChanged ex p →
      (mergeStep m p now).1 =
        insertP m p.name { p with createdAt := ex.createdAt, updatedAt := now } ∧
      lookupP (mergeStep m p now).1 p.name =
        some { p with createdAt := ex.createdAt, updatedAt := now }) := by
  constructor
  · intro target t0 s inputs hm hw e he
    obtain ⟨t2, _, hinv⟩ := tsInv_scrapeLoop target inputs t0 s hm hw
    exact (hinv e he).1
  · intro m p ex now h hc
    refine ⟨?_, ?_⟩
    · unfold mergeStep
      rw [h]
      dsimp only
      rw [if_pos hc]
    · unfold mergeStep
      rw [h]
      dsimp only
      rw [if_pos hc]
      exact lookupP_insertP_self m p.name _

/-- Concrete run of claim C2's theorem: a one-input run inserting a record
with equal timestamps, and a concrete replacement preserving createdAt. -/
theorem timestamps_invariant_witness :
    pOther.createdAt ≤ pOther.updatedAt ∧
    lookupP (mergeStep mW pFetched 7).1 pFetched.name =
      some { pFetched with createdAt := pStored.createdAt, updatedAt := 7 } :=
  ⟨timestamps_invariant.1 5 0 (initState []) [⟨2, some pOther, 5⟩]
      (fun e he => absurd he (List.not_mem_nil e))
      ⟨Nat.zero_le 5, fun p hp => by cases hp; exact ⟨rfl, by decide⟩, trivial⟩
      (goS "Bob", pOther) (by decide),
   (timestamps_invariant.2 mW pFetched pStored 7 (by decide) (by decide)).2⟩

theorem goLen_nil : goLen [] = 0 := rfl

theorem cleanupAux_cons (seen : List (List Char)) (item0 : List Char)
    (rest : List (List Char)) :
    cleanupAux seen (item0 :: rest) =
      if trimSpace item0 = [] ∨ goLen (trimSpace item0) < 3 then cleanupAux seen rest
      else if trimSpace item0 ∈ seen then cleanupAux seen rest
      else trimSpace item0 :: cleanupAux (trimSpace item0 :: seen) rest := rfl

theorem dedupFS_cons (seen : List (List Char)) (x : List Char) (rest : List (List Char)) :
    dedupFS seen (x :: rest) =
      if x ∈ seen then dedupFS seen rest else x :: dedupFS (x :: seen) rest := rfl

theorem cleanupAux_eq_dedupFS (items : List (List Char)) :
    ∀ seen, cleanupAux seen items =
      dedupFS seen ((items.map trimSpace).filter (fun p => decide (3 ≤ goLen p))) := by
  induction items with
  | nil => intro seen; rfl
  | cons item0 rest ih =>
    intro seen
    rw [cleanupAux_cons, List.map_cons, List.filter_cons]
    by_cases h3 : 3 ≤ goLen (trimSpace item0)
    · have hcond : ¬ (trimSpace item0 = [] ∨ goLen (trimSpace item0) < 3) := by
        rintro (he | hlt)
        · rw [he, goLen_nil] at h3
          omega
        · omega
      have hdec : decide (3 ≤ goLen (trimSpace item0)) = true := by
        simp only [decide_eq_true_eq]
        exact h3
      rw [if_neg hcond]
      conv_rhs => rw [if_pos hdec]
      rw [dedupFS_cons]
      by_cases hseen : trimSpace item0 ∈ seen
      · rw [if_pos hseen, if_pos hseen]
        exact ih seen
      · rw [if_neg hseen, if_neg hseen, ih (trimSpace item0 :: seen)]
    · have hcond : trimSpace item0 = [] ∨ goLen (trimSpace item0) < 3 := Or.inr (by omega)
      have hdec : ¬ (decide (3 ≤ goLen (trimSpace item0)) = true) := by
        simp only [decide_eq_true_eq]
        exact h3
      rw [if_pos hcond]
      conv_rhs => rw [if_neg hdec]
      exact ih seen

theorem dedupFS_nodup_and_not_seen (l : List (List Char)) :
    ∀ seen, (dedupFS seen l).Nodup ∧ ∀ x ∈ dedupFS seen l, x ∉ seen := by
  induction l with
  | nil =>
    intro seen
    refine ⟨List.nodup_nil, ?_⟩
    intro x hx
    simp only [dedupFS] at hx
    cases hx
  | cons x rest ih =>
    intro seen
    unfold dedupFS
    by_cases hx : x ∈ seen
    · rw [if_pos hx]
      exact ih seen
    · rw [if_neg hx]
      obtain ⟨hn, hs⟩ := ih (x :: seen)
      refine ⟨List.nodup_cons.mpr ⟨?_, hn⟩, ?_⟩
      · intro hmem
        exact hs x hmem (List.mem_cons_self x seen)
      · intro y hy
        rcases List.mem_cons.mp hy with rfl | hy2
        · exact hx
        · intro hyseen
          exact hs y hy2 (List.mem_cons_of_mem x hyseen)

theorem mem_dedupFS (l : List (List Char)) :
    ∀ seen x, x ∈ dedupFS seen l → x ∈ l := by
  induction l with
  | nil => intro seen x h; cases h
  | cons a rest ih =>
    intro seen x h
    unfold dedupFS at h
    by_cases ha : a ∈ seen
    · rw [if_pos ha] at h
      exact List.mem_cons_of_mem a (ih seen x h)
    · rw [if_neg ha] at h
      rcases List.mem_cons.mp h with rfl | h2
      · exact List.mem_cons_self x rest
      · exact List.mem_cons_of_mem a (ih (a :: seen) x h2)

/-- Claim C8: for every input text the splitter output has no item shorter
than three bytes, has no duplicate items, and equals the first-seen-order
deduplication of the trimmed split pieces that pass the length filter. -/
theorem splitter_cleanup_properties (text : List Char) :
    (∀ x ∈ splitByBullets text, 3 ≤ goLen x) ∧
    (splitByBullets text).Nodup ∧
    splitByBullets text =
      dedupFS [] (((preItems text).map trimSpace).filter (fun p => decide (3 ≤ goLen p))) := by
  have he : splitByBullets text =
      dedupFS [] (((preItems text).map trimSpace).filter (fun p => decide (3 ≤ goLen p))) :=
    cleanupAux_eq_dedupFS (preItems text) []
  refine ⟨?_, ?_, he⟩
  · intro x hx
    rw [he] at hx
    have hmem := mem_dedupFS _ [] x hx
    have := List.of_mem_filter hmem
    simpa using this
  · rw [he]
    exact (dedupFS_nodup_and_not_seen _ []).1

/-- Concrete run of claim C8's theorem on the text "abc • abc • de":
minimum length of a member item, duplicate-freeness, and the first-seen
characterisation. -/
theorem splitter_cleanup_properties_witness :
    3 ≤ goLen (goS "abc") ∧
    (splitByBullets (goS "abc • abc • de")).Nodup ∧
    splitByBullets (goS "abc • abc • de") =
      dedupFS [] (((preItems (goS "abc • abc • de")).map trimSpace).filter
        (fun p => decide (3 ≤ goLen p))) :=
  ⟨(splitter_cleanup_properties (goS "abc • abc • de")).1 (goS "abc") (by decide),
   (splitter_cleanup_properties (goS "abc • abc • de")).2.1,
   (splitter_cleanup_properties (goS "abc • abc • de")).2.2⟩

theorem cutCalc_min (len i : Nat) (o1 o2 o3 : Option Nat)
    (h1 : ∀ j, o1 = some j → j = 0 ∨ i ≤ j)
    (h2 : ∀ j, o2 = some j → j = 0 ∨ i ≤ j)
    (h3 : ∀ j, o3 = some j → j = 0 ∨ i ≤ j)
    (hs : o1 = some i ∨ o2 = some i ∨ o3 = some i)
    (hpos : 0 < i) (hlen : i < len) :
    cutCalc len o1 o2 o3 = i := by
  rcases o1 with _ | j1 <;> rcases o2 with _ | j2 <;> rcases o3 with _ | j3 <;>
    simp only [cutCalc] <;> simp_all <;> split_ifs <;> omega

theorem occIdxs_lt_length (s sub : List Char) (i : Nat) (h : i ∈ occIdxs s sub)
    (hsub : sub ≠ []) : i < s.length := by
  unfold occIdxs at h
  have h2 := List.of_mem_filter h
  cases hsub2 : sub with
  | nil => exact absurd hsub2 hsub
  | cons c cs =>
    rw [hsub2] at h2
    by_contra hlen
    push_neg at hlen
    have hdrop : s.drop i = [] := List.drop_eq_nil_of_le hlen
    rw [hdrop] at h2
    simp [List.isPrefixOf] at h2

theorem lastIdxFrom_mem (low lab : List Char) (j : Nat)
    (h : lastIdxFrom low lab = some j) : j ∈ occIdxs low lab := by
  unfold lastIdxFrom at h
  obtain ⟨hne, hj⟩ := List.mem_getLast?_eq_getLast (Option.mem_def.mpr h)
  rw [hj]
  exact List.getLast_mem hne

theorem lastIdx_of_unique (low lab : List Char) (i : Nat)
    (hocc : i ∈ occIdxs low lab) (huniq : (occIdxs low lab).length ≤ 1) :
    lastIdxFrom low lab = some i := by
  unfold lastIdxFrom
  cases hl : occIdxs low lab with
  | nil =>
    rw [hl] at hocc
    cases hocc
  | cons a tl =>
    rw [hl] at hocc huniq
    have htl : tl = [] := by
      cases tl with
      | nil => rfl
      | cons b t2 => simp at huniq
    subst htl
    have hia : i = a := by simpa using hocc
    subst hia
    rfl

theorem descFromBody_eq (t : List Char) (h : 50 < goLen (trimSpace t)) :
    descFromBody t =
      some (trimSpace
        (if cutCalc (normBody t).length
              (lastIdxFrom (toLowerCs (normBody t)) (goS "verdict:"))
              (lastIdxFrom (toLowerCs (normBody t)) (goS "pros:"))
              (lastIdxFrom (toLowerCs (normBody t)) (goS "cons:")) < (normBody t).length then
            (normBody t).take
              (cutCalc (normBody t).length
                (lastIdxFrom (toLowerCs (normBody t)) (goS "verdict:"))
                (lastIdxFrom (toLowerCs (normBody t)) (goS "pros:"))
                (lastIdxFrom (toLowerCs (normBody t)) (goS "cons:")))
          else normBody t)) := by
  unfold descFromBody normBody
  rw [if_pos h]

/-- Claim C5 (counterexample): a body text longer than the threshold in
which the label "pros:" occurs twice; the code cuts at the last
occurrence (strings.LastIndex), so the extracted description still
contains the first "pros:" label, and is not the text cut at the earliest
occurrence (index 35). -/
theorem description_cut_counterexample :
    descFromBody (goS "aaaa bbbb cccc dddd eeee ffff gggg pros: hhhh iiii pros: tail") =
      some (goS "aaaa bbbb cccc dddd eeee ffff gggg pros: hhhh iiii") ∧
    containsSub (goS "aaaa bbbb cccc dddd eeee ffff gggg pros: hhhh iiii") (goS "pros:") = true ∧
    descFromBody (goS "aaaa bbbb cccc dddd eeee ffff gggg pros: hhhh iiii pros: tail") ≠
      some (trimSpace ((normBody
        (goS "aaaa bbbb cccc dddd eeee ffff gggg pros: hhhh iiii pros: tail")).take 35)) := by
  exact ⟨by decide, by decide, by decide⟩

/-- Claim C5 (amended): for a body text longer than the threshold in which
each of the three labels occurs at most once (case-insensitively), and
whose earliest positive label offset is i, the extracted description is
the normalised text cut at i, and hence contains no text at or after the
first label. -/
theorem description_cut_amended (t : List Char) (i : Nat)
    (hlen : 50 < goLen (trimSpace t))
    (huniq : ∀ lab ∈ descLabels, (occIdxs (toLowerCs (normBody t)) lab).length ≤ 1)
    (hi : i ∈ posLabelOccs (toLowerCs (normBody t)))
    (hmin : ∀ x ∈ posLabelOccs (toLowerCs (normBody t)), i ≤ x) :
    descFromBody t = some (trimSpace ((normBody t).take i)) := by
  have hpos : 0 < i := by simpa using List.of_mem_filter hi
  obtain ⟨lab, hlab, hocc⟩ := List.mem_flatMap.mp (List.mem_of_mem_filter hi)
  have hlabne : lab ≠ [] := by
    simp only [descLabels, List.mem_cons, List.not_mem_nil, or_false] at hlab
    rcases hlab with rfl | rfl | rfl <;> decide
  have hlow_len : (toLowerCs (normBody t)).length = (normBody t).length := by
    simp [toLowerCs]
  have hilen : i < (normBody t).length :=
    hlow_len ▸ occIdxs_lt_length (toLowerCs (normBody t)) lab i hocc hlabne
  have hbound : ∀ lab2 ∈ descLabels, ∀ j,
      lastIdxFrom (toLowerCs (normBody t)) lab2 = some j → j = 0 ∨ i ≤ j := by
    intro lab2 hlab2 j hj
    by_cases hj0 : j = 0
    · exact Or.inl hj0
    · refine Or.inr (hmin j (List.mem_filter.mpr ⟨?_, ?_⟩))
      · exact List.mem_flatMap.mpr ⟨lab2, hlab2, lastIdxFrom_mem _ lab2 j hj⟩
      · simpa using Nat.pos_of_ne_zero hj0
  have hsome : lastIdxFrom (toLowerCs (normBody t)) lab = some i :=
    lastIdx_of_unique _ lab i hocc (huniq lab hlab)
  have hcut : cutCalc (normBody t).length
      (lastIdxFrom (toLowerCs (normBody t)) (goS "verdict:"))
      (lastIdxFrom (toLowerCs (normBody t)) (goS "pros:"))
      (lastIdxFrom (toLowerCs (normBody t)) (goS "cons:")) = i := by
    apply cutCalc_min
    · exact hbound (goS "verdict:") (by simp [descLabels]) 
    · exact hbound (goS "pros:") (by simp [descLabels])
    · exact hbound (goS "cons:") (by simp [descLabels])
    · simp only [descLabels, List.mem_cons, List.not_mem_nil, or_false] at hlab
      rcases hlab with rfl | rfl | rfl
      · exact Or.inl hsome
      · exact Or.inr (Or.inl hsome)
      · exact Or.inr (Or.inr hsome)
    · exact hpos
    · exact hilen
  rw [descFromBody_eq t hlen, hcut, if_pos hilen]

/-- Concrete run of claim C5's amended theorem: a 55-byte body with one
"pros:" at offset 35 and one "cons:" at offset 46; the description is the
text cut at offset 35. -/
theorem description_cut_amended_witness :
    descFromBody (goS "aaaa bbbb cccc dddd eeee ffff gggg pros: good cons: bad") =
      some (trimSpace ((normBody
        (goS "aaaa bbbb cccc dddd eeee ffff gggg pros: good cons: bad")).take 35)) :=
  description_cut_amended (goS "aaaa bbbb cccc dddd eeee ffff gggg pros: good cons: bad") 35
    (by decide) (by decide) (by decide) (by decide)
